import Mathlib

/- Verification of the C4D resource-ID checker (c4d_check_resource_ids.py).

Shallow embedding conventions: a Python string is a list of characters, a
file is the list of its lines, and every Python exception that the script
does not catch (IndexError from indexing an empty string, ValueError from
int conversion or tuple unpacking) is modelled with Option, where none
stands for the exception propagating out of the function. -/

/-- Resource names are character lists, Python strings with no further
structure. -/
abbrev Name := List Char

/-- ValueIndex is the valueNameDict of the script: an insertion-ordered map
from an ID value to the list of names bound to it, modelled as an
association list whose keys are distinct. -/
abbrev ValueIndex := List (Int × List Name)

/-- Characters removed by the strip call of strip_line from both ends of a
raw line. -/
def isNL (c : Char) : Bool := c = '\r' || c = '\n'

/-- Embeds strip_line: strip carriage returns and newlines from both ends,
then remove every tab and every space character. -/
def strip_line (l : List Char) : List Char :=
  (((l.dropWhile isNL).reverse.dropWhile isNL).reverse).filter
    (fun c => !(c = '\t' || c = ' '))

/-- Embeds filter_line: keep lines longer than 3 characters that do not
start with a slash or a hash and contain an equals sign. The Python
conjunction short-circuits, so the first character is only inspected on a
non-empty line; getD with a harmless default models that. -/
def filter_line (l : List Char) : Bool :=
  decide (3 < l.length) && (l.getD 0 ' ' != '/') && (l.getD 0 ' ' != '#')
    && l.contains '='

/-- Index of the first occurrence of a double slash in the line, as the
find call of clean_line returns it; none is the minus-one case. -/
def findComment : List Char → Option Nat
  | [] => none
  | c :: rest =>
    if c = '/' ∧ rest.headD ' ' = '/' then some 0
    else (findComment rest).map (· + 1)

/-- First half of clean_line: drop everything from the first double slash
onward, or keep the line unchanged when it has no comment. -/
def remove_comment (l : List Char) : List Char :=
  match findComment l with
  | some p => l.take p
  | none => l

/-- Embeds clean_line: remove the inline comment, then remove one trailing
comma. Python reads the last character with index -1, which raises
IndexError on an empty string; that crash is the none case. -/
def clean_line (l : List Char) : Option (List Char) :=
  let l1 := remove_comment l
  if l1 = [] then none
  else some (if l1.getLastD ' ' = ',' then l1.dropLast else l1)

/-- Python split on the equals character: an empty string splits into one
empty field, and every equals sign starts a new field. -/
def split_eq : List Char → List (List Char)
  | [] => [[]]
  | c :: rest =>
    match split_eq rest with
    | [] => [[c]]
    | f :: fs => if c = '=' then [] :: f :: fs else (c :: f) :: fs

/-- Numeric value of a list of decimal digit characters. -/
def digitsToNat (cs : List Char) : Nat :=
  cs.foldl (fun acc c => acc * 10 + (c.toNat - 48)) 0

/-- Unsigned part of the Python int conversion: at least one character and
all of them decimal digits; none is the ValueError case. -/
def pyIntCore (cs : List Char) : Option Nat :=
  if cs ≠ [] ∧ cs.all (·.isDigit) then some (digitsToNat cs) else none

/-- Embeds the Python int conversion of a string that carries no
surrounding whitespace: an optional sign followed by decimal digits; none
is the ValueError case. -/
def pyInt (cs : List Char) : Option Int :=
  match cs with
  | '+' :: rest => (pyIntCore rest).map (fun n => (n : Int))
  | '-' :: rest => (pyIntCore rest).map (fun n => -(n : Int))
  | _ => (pyIntCore cs).map (fun n => (n : Int))

/-- Embeds the final list comprehension of parse_c4d_resource_header: keep
a split tuple when it has more than one field and its second field
converts to an integer at least minval. The conjunction short-circuits,
so tuples with at most one field are dropped before the conversion is
attempted; a failing conversion is the uncaught ValueError, none. -/
def threshold_filter (minval : Int) : List (List (List Char)) → Option (List (List (List Char)))
  | [] => some []
  | t :: rest =>
    if t.length ≤ 1 then threshold_filter minval rest
    else
      match pyInt (t.getD 1 []) with
      | none => none
      | some v =>
        if minval ≤ v then (threshold_filter minval rest).map (t :: ·)
        else threshold_filter minval rest

/-- Embeds parse_c4d_resource_header applied to the lines read from the
file: strip every line, keep the lines passing filter_line, clean them,
split them on equals signs and apply the threshold filter. The except
branch of the Python function catches only IOError, raised by opening or
reading the file; the lines are taken as given here, and none models any
other exception escaping the function. -/
def parse_c4d_resource_header (fileLines : List (List Char)) (minval : Int) :
    Option (List (List (List Char))) :=
  match ((fileLines.map strip_line).filter filter_line).mapM clean_line with
  | none => none
  | some cleaned => threshold_filter minval (cleaned.map split_eq)

/-- One valueNameDict update of associate_values_to_names: append idName
to the list stored under idValue, adding a fresh key at the end in dict
insertion order when the value is new. -/
def dictAdd : ValueIndex → Int → Name → ValueIndex
  | [], v, n => [(v, [n])]
  | (k, ns) :: rest, v, n =>
    if k = v then (k, ns ++ [n]) :: rest else (k, ns) :: dictAdd rest v n

/-- Unpacking of one parsed tuple inside associate_values_to_names: the
assignment of the tuple to the pair idName, idValue raises ValueError
unless the tuple has exactly two fields, and the int conversion of
idValue raises ValueError on malformed text; both crashes are none. -/
def unpack_line (t : List (List Char)) : Option (Name × Int) :=
  match t with
  | [idName, idValue] => (pyInt idValue).map (fun v => (idName, v))
  | _ => none

/-- Aggregation loop of associate_values_to_names over the unpacked
declarations. -/
def build_index (decls : List (Name × Int)) : ValueIndex :=
  decls.foldl (fun d p => dictAdd d p.2 p.1) []

/-- Embeds associate_values_to_names: unpack every tuple and fold the
declarations into the valueNameDict. The loop body is split into
unpack_line and build_index; the result equals the sequential Python loop
because a ValueError at any tuple makes the whole call fail. -/
def associate_values_to_names (lines : List (List (List Char))) : Option ValueIndex :=
  (lines.mapM unpack_line).map build_index

/-- Which closing message check_unique_resource_ids logs. -/
inductive UniqueSummary
  | collisionsFound
  | allUnique
  | noIds
  deriving DecidableEq

/-- Embeds check_unique_resource_ids as the data it reports: the entries
logged with their full name lists, in iteration order, and the closing
message. An entry is logged exactly when its name list has more than one
element; nothingFound records whether any entry was logged. -/
def check_unique_resource_ids (d : ValueIndex) : List (Int × List Name) × UniqueSummary :=
  let collisions := d.filter (fun p => decide (1 < p.2.length))
  (collisions,
    if collisions.isEmpty then
      (if 0 < d.length then UniqueSummary.allUnique else UniqueSummary.noIds)
    else UniqueSummary.collisionsFound)

/-- Sorted list of the keys of the valueNameDict. The Python sorted
builtin is a stable ascending sort, as is insertion sort, and stable
ascending sorts agree. -/
def sorted_keys (d : ValueIndex) : List Int :=
  List.insertionSort (· ≤ ·) (d.map Prod.fst)

/-- One iteration of the gap loop of get_suggested_value_list at position
i: Python indexes the previous element at i - 1, which for i = 0 is
index -1, the last element of the list. -/
def gapStep (V : List Int) (i : Nat) : List Int :=
  let prev := if i = 0 then V.getLastD 0 else V.getD (i - 1) 0
  if prev + 1 < V.getD i 0 then [prev] else []

/-- The valueGaps list collected by the loop of get_suggested_value_list,
iterating the positions of the sorted value list in order. -/
def value_gaps (V : List Int) : List Int :=
  (List.range V.length).flatMap (gapStep V)

/-- The running maximum largestValue of get_suggested_value_list,
initialised to 0. -/
def largest_value (V : List Int) : Int :=
  V.foldl max 0

/-- Embeds get_suggested_value_list: the gap suggestions in loop order
followed by the suggestion after the largest value. The single Python
loop updates largestValue and valueGaps independently of each other, so
it is split into largest_value and value_gaps. -/
def get_suggested_value_list (d : ValueIndex) (minVal : Int) : List Int :=
  let sortedIdValues := sorted_keys d
  (value_gaps sortedIdValues).map (· + 1) ++
    [max (largest_value sortedIdValues + 1) minVal]

/-- Modelled from the spec for the refinement claim about gap detection:
skip index 0 and record the predecessor of every element that exceeds its
predecessor by more than one. -/
def spec_gap_markers : List Int → List Int
  | a :: b :: rest =>
    (if a + 1 < b then [a] else []) ++ spec_gap_markers (b :: rest)
  | _ => []

/-- Embeds find_id_blocks. The Python groupby over the enumerated sorted
values with key i - x groups maximal adjacent runs with equal key, and
the keys of two adjacent elements are equal exactly when the later value
is the earlier plus one, so the grouping is embedded directly on that
successor relation. -/
def group_runs : List Int → List (List Int)
  | [] => []
  | x :: xs =>
    match group_runs xs with
    | (y :: ys) :: rest =>
      if y = x + 1 then (x :: y :: ys) :: rest else [x] :: (y :: ys) :: rest
    | other => [x] :: other

/-- The blocks reported by show_id_blocks for a valueNameDict. -/
def find_id_blocks (d : ValueIndex) : List (List Int) :=
  group_runs (sorted_keys d)

theorem range_flatMap_succ {β : Type} (f : Nat → List β) (n : Nat) :
    (List.range (n + 1)).flatMap f = f 0 ++ (List.range n).flatMap (fun i => f (i + 1)) := by
  rw [List.range_succ_eq_map]
  simp [List.flatMap_cons, List.flatMap_map, Function.comp]

theorem head_le_getLastD (a : Int) (xs : List Int) (hs : (a :: xs).Pairwise (· ≤ ·)) :
    a ≤ (a :: xs).getLastD 0 := by
  cases xs with
  | nil => simp [List.getLastD]
  | cons b ys =>
    have hmem : ((b :: ys).getLastD a) ∈ a :: b :: ys := List.getLastD_mem_cons _ _
    have hcons := List.pairwise_cons.mp hs
    rw [List.getLastD_cons]
    rcases List.mem_cons.mp hmem with h | h
    · rw [h]
    · exact hcons.1 _ h

theorem gapStep_zero_of_sorted (V : List Int) (hs : V.Pairwise (· ≤ ·)) :
    gapStep V 0 = [] := by
  cases V with
  | nil => rfl
  | cons a xs =>
    have h := head_le_getLastD a xs hs
    unfold gapStep
    rw [List.getLastD_eq_getLast?] at h
    norm_num
    omega

theorem tail_gaps : ∀ (V : List Int) (a : Int),
    (List.range V.length).flatMap (fun i => gapStep (a :: V) (i + 1)) = spec_gap_markers (a :: V)
  | [], a => by simp [spec_gap_markers]
  | b :: rest, a => by
    have h1 : gapStep (a :: b :: rest) (0 + 1) = if a + 1 < b then [a] else [] := by
      simp [gapStep]
    have h2 : (List.range rest.length).flatMap (fun i => gapStep (a :: b :: rest) (i + 1 + 1))
        = (List.range rest.length).flatMap (fun i => gapStep (b :: rest) (i + 1)) :=
      congrArg (List.flatMap (List.range rest.length))
        (funext fun i => by simp [gapStep, List.getD_cons_succ])
    calc (List.range (b :: rest).length).flatMap (fun i => gapStep (a :: b :: rest) (i + 1))
        = gapStep (a :: b :: rest) (0 + 1) ++ (List.range rest.length).flatMap
            (fun i => gapStep (a :: b :: rest) (i + 1 + 1)) := by
          rw [List.length_cons, range_flatMap_succ]
      _ = (if a + 1 < b then [a] else []) ++ (List.range rest.length).flatMap
            (fun i => gapStep (b :: rest) (i + 1)) := by
          rw [h1, h2]
      _ = spec_gap_markers (a :: b :: rest) := by
          rw [tail_gaps rest b, spec_gap_markers]

theorem value_gaps_eq_spec (V : List Int) (hs : V.Pairwise (· ≤ ·)) :
    value_gaps V = spec_gap_markers V := by
  cases V with
  | nil => rfl
  | cons a xs =>
    unfold value_gaps
    rw [List.length_cons, range_flatMap_succ, gapStep_zero_of_sorted _ hs, List.nil_append]
    exact tail_gaps xs a

theorem spec_gap_markers_subset : ∀ (V : List Int) (g : Int), g ∈ spec_gap_markers V → g ∈ V
  | [], g, h => by simp [spec_gap_markers] at h
  | [a], g, h => by simp [spec_gap_markers] at h
  | a :: b :: rest, g, h => by
    rw [spec_gap_markers] at h
    rcases List.mem_append.mp h with h1 | h1
    · have hg : g = a := by
        by_cases hc : a + 1 < b
        · simpa [hc] using h1
        · simp [hc] at h1
      rw [hg]
      exact List.mem_cons_self a (b :: rest)
    · exact List.mem_cons_of_mem a (spec_gap_markers_subset (b :: rest) g h1)

theorem spec_gap_markers_succ_not_mem : ∀ (V : List Int), V.Pairwise (· < ·) →
    ∀ g ∈ spec_gap_markers V, g + 1 ∉ V
  | [], _, g, h => by simp [spec_gap_markers] at h
  | [a], _, g, h => by simp [spec_gap_markers] at h
  | a :: b :: rest, hs, g, h => by
    have hpc := List.pairwise_cons.mp hs
    rw [spec_gap_markers] at h
    rcases List.mem_append.mp h with h1 | h1
    · by_cases hc : a + 1 < b
      · have hg : g = a := by simpa [hc] using h1
        subst hg
        intro hmem
        rcases List.mem_cons.mp hmem with h2 | h2
        · omega
        · rcases List.mem_cons.mp h2 with h3 | h3
          · omega
          · have hb := (List.pairwise_cons.mp hpc.2).1 _ h3
            omega
      · simp [hc] at h1
    · have ih := spec_gap_markers_succ_not_mem (b :: rest) hpc.2 g h1
      intro hmem
      rcases List.mem_cons.mp hmem with h2 | h2
      · have hg := spec_gap_markers_subset (b :: rest) g h1
        have ha := hpc.1 _ hg
        omega
      · exact ih h2

theorem le_foldl_max (V : List Int) : ∀ b : Int, b ≤ V.foldl max b := by
  induction V with
  | nil => intro b; exact le_refl b
  | cons a xs ih =>
    intro b
    simp only [List.foldl_cons]
    exact le_trans (le_max_left b a) (ih (max b a))

theorem mem_le_foldl_max (V : List Int) : ∀ (b x : Int), x ∈ V → x ≤ V.foldl max b := by
  induction V with
  | nil => intro b x hx; simp at hx
  | cons a xs ih =>
    intro b x hx
    simp only [List.foldl_cons]
    rcases List.mem_cons.mp hx with h | h
    · subst h
      exact le_trans (le_max_right b x) (le_foldl_max xs (max b x))
    · exact ih _ _ h

theorem sorted_keys_sorted (d : ValueIndex) : (sorted_keys d).Pairwise (· ≤ ·) :=
  List.sorted_insertionSort (· ≤ ·) (d.map Prod.fst)

theorem sorted_keys_perm (d : ValueIndex) : (sorted_keys d).Perm (d.map Prod.fst) :=
  List.perm_insertionSort (· ≤ ·) (d.map Prod.fst)

theorem mem_sorted_keys (d : ValueIndex) (p : Int × List Name) (hp : p ∈ d) :
    p.1 ∈ sorted_keys d :=
  ((sorted_keys_perm d).mem_iff).mpr (List.mem_map_of_mem Prod.fst hp)

theorem sorted_keys_strict (d : ValueIndex) (hnd : (d.map Prod.fst).Nodup) :
    (sorted_keys d).Pairwise (· < ·) := by
  have h1 := sorted_keys_sorted d
  have h2 : (sorted_keys d).Pairwise (· ≠ ·) := (sorted_keys_perm d).symm.nodup hnd
  exact List.Pairwise.imp (fun h => lt_of_le_of_ne h.1 h.2) (h1.and h2)

theorem dictAdd_mem_iff (d : ValueIndex) (v : Int) (n : Name) (v2 : Int) (n2 : Name) :
    (∃ ns, (v2, ns) ∈ dictAdd d v n ∧ n2 ∈ ns)
      ↔ (∃ ns, (v2, ns) ∈ d ∧ n2 ∈ ns) ∨ (v2 = v ∧ n2 = n) := by
  induction d with
  | nil =>
    simp only [dictAdd, List.mem_singleton, Prod.mk.injEq, List.not_mem_nil, false_and,
      exists_const, false_or]
    constructor
    · rintro ⟨ns, ⟨hv, rfl⟩, hn⟩
      exact ⟨hv, by simpa using hn⟩
    · rintro ⟨hv, hn⟩
      exact ⟨[n], ⟨hv, rfl⟩, by simp [hn]⟩
  | cons p rest ih =>
    obtain ⟨k, ns0⟩ := p
    by_cases hk : k = v
    · subst hk
      simp only [dictAdd, if_pos rfl]
      simp only [List.mem_cons, Prod.mk.injEq]
      aesop
    · simp only [dictAdd, if_neg hk]
      constructor
      · rintro ⟨ns, hmem, hn2⟩
        rcases List.mem_cons.mp hmem with h | h
        · exact Or.inl ⟨ns, List.mem_cons.mpr (Or.inl h), hn2⟩
        · rcases ih.mp ⟨ns, h, hn2⟩ with ⟨ns2, hm2, hn22⟩ | h2
          · exact Or.inl ⟨ns2, List.mem_cons_of_mem _ hm2, hn22⟩
          · exact Or.inr h2
      · rintro (⟨ns, hmem, hn2⟩ | h2)
        · rcases List.mem_cons.mp hmem with h | h
          · exact ⟨ns, List.mem_cons.mpr (Or.inl h), hn2⟩
          · obtain ⟨ns2, hm2, hn22⟩ := ih.mpr (Or.inl ⟨ns, h, hn2⟩)
            exact ⟨ns2, List.mem_cons_of_mem _ hm2, hn22⟩
        · obtain ⟨ns2, hm2, hn22⟩ := ih.mpr (Or.inr h2)
          exact ⟨ns2, List.mem_cons_of_mem _ hm2, hn22⟩

theorem foldl_dictAdd_mem_iff (decls : List (Name × Int)) :
    ∀ (d0 : ValueIndex) (v2 : Int) (n2 : Name),
      (∃ ns, (v2, ns) ∈ decls.foldl (fun d p => dictAdd d p.2 p.1) d0 ∧ n2 ∈ ns)
        ↔ (∃ ns, (v2, ns) ∈ d0 ∧ n2 ∈ ns) ∨ (n2, v2) ∈ decls := by
  induction decls with
  | nil => intro d0 v2 n2; simp
  | cons p ps ih =>
    intro d0 v2 n2
    rw [List.foldl_cons, ih (dictAdd d0 p.2 p.1) v2 n2, dictAdd_mem_iff]
    constructor
    · rintro ((h | ⟨hv, hn⟩) | h)
      · exact Or.inl h
      · right
        exact List.mem_cons.mpr (Or.inl (Prod.ext_iff.mpr ⟨hn, hv⟩))
      · exact Or.inr (List.mem_cons_of_mem _ h)
    · rintro (h | h)
      · exact Or.inl (Or.inl h)
      · rcases List.mem_cons.mp h with h1 | h1
        · obtain ⟨hn, hv⟩ := Prod.ext_iff.mp h1
          exact Or.inl (Or.inr ⟨hv, hn⟩)
        · exact Or.inr h1

theorem build_index_mem_iff (decls : List (Name × Int)) (v2 : Int) (n2 : Name) :
    (∃ ns, (v2, ns) ∈ build_index decls ∧ n2 ∈ ns) ↔ (n2, v2) ∈ decls := by
  rw [build_index, foldl_dictAdd_mem_iff]
  simp

theorem mapM_mem {α β : Type} (f : α → Option β) :
    ∀ (l : List α) (l2 : List β), l.mapM f = some l2 →
      ∀ a ∈ l, ∀ b, f a = some b → b ∈ l2
  | [], _, _, a, ha, _, _ => absurd ha (List.not_mem_nil a)
  | x :: xs, l2, h, a, ha, b, hb => by
    rw [List.mapM_cons] at h
    simp only [Option.bind_eq_bind, Option.bind_eq_some, Option.pure_def,
      Option.some.injEq] at h
    obtain ⟨y, hy, ys, hys, hl⟩ := h
    subst hl
    rcases List.mem_cons.mp ha with hax | hax
    · subst hax
      rw [hy] at hb
      injection hb with hb
      subst hb
      exact List.mem_cons_self _ _
    · exact List.mem_cons_of_mem _ (mapM_mem f xs ys hys a hax b hb)

theorem threshold_filter_eq_none (minval : Int) :
    ∀ (ts : List (List (List Char))) (t : List (List Char)), t ∈ ts → 1 < t.length →
      pyInt (t.getD 1 []) = none → threshold_filter minval ts = none
  | [], t, ht, _, _ => absurd ht (List.not_mem_nil t)
  | u :: rest, t, ht, hlen, hbad => by
    rcases List.mem_cons.mp ht with h | h
    · subst h
      simp only [threshold_filter, if_neg (by omega : ¬t.length ≤ 1), hbad]
    · have ih := threshold_filter_eq_none minval rest t h hlen hbad
      simp only [threshold_filter]
      by_cases hu : u.length ≤ 1
      · rw [if_pos hu]
        exact ih
      · rw [if_neg hu]
        cases hpu : pyInt (u.getD 1 []) with
        | none => rfl
        | some v => simp [ih]

theorem group_runs_not_nil : ∀ (l : List Int), [] ∉ group_runs l
  | [] => by simp [group_runs]
  | x :: xs => by
    have ih := group_runs_not_nil xs
    cases hg : group_runs xs with
    | nil =>
      simp only [group_runs, hg]
      simp
    | cons b rest =>
      cases b with
      | nil => exact absurd (by rw [hg]; exact List.mem_cons_self _ _) ih
      | cons y ys =>
        simp only [group_runs, hg]
        by_cases hy : y = x + 1
        · rw [if_pos hy]
          intro hmem
          rcases List.mem_cons.mp hmem with h | h
          · exact List.cons_ne_nil _ _ h.symm
          · exact ih (by rw [hg]; exact List.mem_cons_of_mem _ h)
        · rw [if_neg hy]
          intro hmem
          rcases List.mem_cons.mp hmem with h | h
          · exact List.cons_ne_nil _ _ h.symm
          · rcases List.mem_cons.mp h with h2 | h2
            · exact List.cons_ne_nil _ _ h2.symm
            · exact ih (by rw [hg]; exact List.mem_cons_of_mem _ h2)

theorem group_runs_flatten : ∀ (l : List Int), (group_runs l).flatten = l
  | [] => rfl
  | x :: xs => by
    have ih := group_runs_flatten xs
    cases hg : group_runs xs with
    | nil =>
      have hxs : xs = [] := by rw [← ih, hg]; rfl
      simp [group_runs, hg, hxs]
    | cons b rest =>
      cases b with
      | nil => exact absurd (by rw [hg]; exact List.mem_cons_self _ _) (group_runs_not_nil xs)
      | cons y ys =>
        have ih2 : (y :: ys) ++ rest.flatten = xs := by
          rw [← ih, hg, List.flatten_cons]
        simp only [group_runs, hg]
        by_cases hy : y = x + 1
        · rw [if_pos hy, List.flatten_cons, List.cons_append, ih2]
        · rw [if_neg hy, List.flatten_cons, List.singleton_append, List.flatten_cons, ih2]

theorem group_runs_chain : ∀ (l : List Int), ∀ b ∈ group_runs l,
    b.Chain' (fun p q => q = p + 1)
  | [] => by simp [group_runs]
  | x :: xs => by
    intro b hb
    have ih := group_runs_chain xs
    cases hg : group_runs xs with
    | nil =>
      simp only [group_runs, hg] at hb
      rcases List.mem_singleton.mp hb with h
      rw [h]
      simp
    | cons hd rest =>
      cases hd with
      | nil => exact absurd (by rw [hg]; exact List.mem_cons_self _ _) (group_runs_not_nil xs)
      | cons y ys =>
        simp only [group_runs, hg] at hb
        by_cases hy : y = x + 1
        · rw [if_pos hy] at hb
          rcases List.mem_cons.mp hb with h | h
          · subst h
            have hc := ih (y :: ys) (by rw [hg]; exact List.mem_cons_self _ _)
            exact List.chain'_cons.mpr ⟨hy, hc⟩
          · exact ih b (by rw [hg]; exact List.mem_cons_of_mem _ h)
        · rw [if_neg hy] at hb
          rcases List.mem_cons.mp hb with h | h
          · subst h
            simp
          · exact ih b (by rw [hg]; exact h)

theorem group_runs_maximal : ∀ (l : List Int),
    (group_runs l).Chain' (fun b c => c.headD 0 ≠ b.getLastD 0 + 1)
  | [] => List.chain'_nil
  | x :: xs => by
    have ih := group_runs_maximal xs
    cases hg : group_runs xs with
    | nil =>
      simp [group_runs, hg]
    | cons hd rest =>
      cases hd with
      | nil => exact absurd (by rw [hg]; exact List.mem_cons_self _ _) (group_runs_not_nil xs)
      | cons y ys =>
        rw [hg] at ih
        simp only [group_runs, hg]
        by_cases hy : y = x + 1
        · rw [if_pos hy]
          cases rest with
          | nil => simp
          | cons c cs =>
            rw [List.chain'_cons] at ih ⊢
            constructor
            · have h1 := ih.1
              rw [List.getLastD_cons] at h1
              rw [List.getLastD_cons, List.getLastD_cons]
              exact h1
            · exact ih.2
        · rw [if_neg hy]
          rw [List.chain'_cons]
          constructor
          · simpa using hy
          · exact ih

theorem findComment_zero (l : List Char) (h : findComment l = some 0) :
    l.getD 0 ' ' = '/' := by
  cases l with
  | nil => simp [findComment] at h
  | cons c rest =>
    by_cases hc : c = '/' ∧ rest.headD ' ' = '/'
    · simp [List.getD_cons_zero, hc.1]
    · rw [findComment, if_neg hc] at h
      rcases Option.map_eq_some'.mp h with ⟨p, _, hp⟩
      omega

/-- Claim C10: for every normalized line accepted by the line filter, the
comment-stripped line is non-empty, so the trailing-comma check of
clean_line never indexes an empty string and clean_line cannot crash. -/
theorem claim_C10 (l : List Char) (hf : filter_line l = true) :
    remove_comment l ≠ [] ∧ (clean_line l).isSome = true := by
  simp only [filter_line, Bool.and_eq_true, decide_eq_true_eq, bne_iff_ne, ne_eq] at hf
  have hlen : 3 < l.length := hf.1.1.1
  have hslash : ¬l.getD 0 ' ' = '/' := hf.1.1.2
  have hne : l ≠ [] := by
    intro h
    rw [h] at hlen
    simp at hlen
  have hrc : remove_comment l ≠ [] := by
    unfold remove_comment
    cases hfc : findComment l with
    | none => exact hne
    | some p =>
      intro htake
      rcases List.take_eq_nil_iff.mp htake with h | h
      · subst h
        exact hslash (findComment_zero l hfc)
      · exact hne h
  refine ⟨hrc, ?_⟩
  simp only [clean_line]
  rw [if_neg hrc]
  rfl

theorem claim_C10_witness :
    filter_line (("A=10").data) = true
    ∧ (remove_comment (("A=10").data) ≠ [] ∧ (clean_line (("A=10").data)).isSome = true) :=
  ⟨by decide, claim_C10 (("A=10").data) (by decide)⟩

/-- Claim C2: no value suggested by get_suggested_value_list is a key of
the valueNameDict, for every index with distinct keys and every floor. -/
theorem claim_C2 (d : ValueIndex) (hnd : (d.map Prod.fst).Nodup) (minVal : Int) :
    ∀ s ∈ get_suggested_value_list d minVal, ∀ p ∈ d, s ≠ p.1 := by
  intro s hs p hp
  have hkey : p.1 ∈ sorted_keys d := mem_sorted_keys d p hp
  have hsorted := sorted_keys_sorted d
  have hstrict := sorted_keys_strict d hnd
  simp only [get_suggested_value_list] at hs
  rcases List.mem_append.mp hs with h1 | h1
  · rcases List.mem_map.mp h1 with ⟨g, hg, hgs⟩
    rw [value_gaps_eq_spec _ hsorted] at hg
    have hnm := spec_gap_markers_succ_not_mem _ hstrict g hg
    intro heq
    rw [← hgs] at heq
    exact hnm (heq ▸ hkey)
  · have hs1 : s = max (largest_value (sorted_keys d) + 1) minVal := by simpa using h1
    have hlarge : p.1 ≤ largest_value (sorted_keys d) := mem_le_foldl_max _ 0 _ hkey
    intro heq
    rw [hs1] at heq
    have hge : largest_value (sorted_keys d) + 1 ≤ p.1 := heq ▸ le_max_left _ _
    omega

theorem claim_C2_witness :
    ([(100, [("A").data]), (102, [("B").data])].map Prod.fst).Nodup
    ∧ (101 : Int) ∈ get_suggested_value_list [(100, [("A").data]), (102, [("B").data])] 1000
    ∧ (100, [("A").data]) ∈ [(100, [("A").data]), (102, [("B").data])]
    ∧ (101 : Int) ≠ 100 :=
  ⟨by decide, by decide, by decide,
    claim_C2 [(100, [("A").data]), (102, [("B").data])] (by decide) 1000 101 (by decide)
      (100, [("A").data]) (by decide)⟩

/-- Claim C7: on a non-empty strictly ascending value list, the gap loop
with its wrap-around comparison at index 0 records exactly the gap
markers of the corrected skip-index-0 formulation, in the same order, and
the iteration at index 0 records nothing. -/
theorem claim_C7 (V : List Int) (hne : V ≠ []) (hs : V.Pairwise (· < ·)) :
    value_gaps V = spec_gap_markers V ∧ gapStep V 0 = [] := by
  have hle : V.Pairwise (· ≤ ·) := hs.imp le_of_lt
  exact ⟨value_gaps_eq_spec V hle, gapStep_zero_of_sorted V hle⟩

theorem claim_C7_witness :
    (([100, 102, 105] : List Int) ≠ [] ∧ ([100, 102, 105] : List Int).Pairwise (· < ·))
    ∧ (value_gaps [100, 102, 105] = spec_gap_markers [100, 102, 105]
      ∧ gapStep [100, 102, 105] 0 = []) :=
  ⟨⟨by decide, by decide⟩, claim_C7 [100, 102, 105] (by decide) (by decide)⟩

/-- Claim C4, counterexample: on the non-empty index with single key 100,
the floor changes the output of get_suggested_value_list, so the floor is
not used only when the index is empty. -/
theorem claim_C4_counterexample :
    ([(100, [("A").data])] : ValueIndex) ≠ []
    ∧ get_suggested_value_list [(100, [("A").data])] 0 = [101]
    ∧ get_suggested_value_list [(100, [("A").data])] 1000 = [1000]
    ∧ get_suggested_value_list [(100, [("A").data])] 0
      ≠ get_suggested_value_list [(100, [("A").data])] 1000 := by
  decide

/-- Claim C4, amended: the floor argument affects only the final
suggestion, which is the maximum of largestValue plus one and the floor;
the gap suggestions are floor-independent, but the final suggestion
follows the floor whenever the floor exceeds largestValue plus one, also
on a non-empty index. -/
theorem claim_C4_amended (d : ValueIndex) (m1 m2 : Int) :
    (get_suggested_value_list d m1).dropLast = (get_suggested_value_list d m2).dropLast
    ∧ (get_suggested_value_list d m1).getLast?
      = some (max (largest_value (sorted_keys d) + 1) m1) := by
  constructor
  · simp only [get_suggested_value_list]
    rw [List.dropLast_concat, List.dropLast_concat]
  · simp only [get_suggested_value_list]
    rw [List.getLast?_concat]

/-- Claim C8: find_id_blocks partitions the ascending sorted key list into
non-empty maximal runs of consecutive integers, and on the keys 100, 101,
102, 105, 106, 110 it yields the three expected blocks. -/
theorem claim_C8 (d : ValueIndex) :
    (find_id_blocks d).flatten = sorted_keys d
    ∧ (∀ b ∈ find_id_blocks d, b ≠ [] ∧ b.Chain' (fun p q => q = p + 1))
    ∧ (find_id_blocks d).Chain' (fun b c => c.headD 0 ≠ b.getLastD 0 + 1)
    ∧ find_id_blocks [(100, []), (101, []), (102, []), (105, []), (106, []), (110, [])]
      = [[100, 101, 102], [105, 106], [110]] := by
  refine ⟨group_runs_flatten _, fun b hb => ⟨?_, group_runs_chain _ b hb⟩,
    group_runs_maximal _, by decide⟩
  intro hbnil
  exact group_runs_not_nil _ (hbnil ▸ hb)

/-- Claim C1: on the raw line with tab, spaces, trailing comma, inline
comment and CRLF ending, the full pipeline keeps exactly one tuple, the
name MY_ID with value text 105, and the declaration unpacked from it is
the pair of MY_ID and the integer 105, for every threshold at most 105. -/
theorem claim_C1 (minval : Int) (h : minval ≤ 105) :
    parse_c4d_resource_header [("\tMY_ID = 105, // comment\r\n").data] minval
      = some [[("MY_ID").data, ("105").data]]
    ∧ [[("MY_ID").data, ("105").data]].mapM unpack_line
      = some [(("MY_ID").data, (105 : Int))] := by
  constructor
  · show threshold_filter minval [[("MY_ID").data, ("105").data]]
      = some [[("MY_ID").data, ("105").data]]
    have hp : pyInt (("105").data) = some 105 := by decide
    simp [threshold_filter, hp, h]
  · decide

theorem claim_C1_witness :
    (100 : Int) ≤ 105
    ∧ (parse_c4d_resource_header [("\tMY_ID = 105, // comment\r\n").data] 100
        = some [[("MY_ID").data, ("105").data]]
      ∧ [[("MY_ID").data, ("105").data]].mapM unpack_line
        = some [(("MY_ID").data, (105 : Int))]) :=
  ⟨by decide, claim_C1 100 (by decide)⟩

/-- Claim C5, counterexample: the cleaned line with two equals signs is
kept by the parser as a three-field tuple, value text taken at field
index 1, but the index builder fails on it with a ValueError instead of
yielding the declaration of field 0 and field 1. -/
theorem claim_C5_counterexample :
    parse_c4d_resource_header [("A=5=6").data] 0
      = some [[("A").data, ("5").data, ("6").data]]
    ∧ associate_values_to_names [[("A").data, ("5").data, ("6").data]] = none := by
  decide

/-- Claim C5, amended: the parser splits on every equals sign; a tuple
with fewer than two fields is dropped silently; a tuple with exactly two
fields whose field 1 parses to an integer at least the threshold is kept
and unpacks to the declaration of field 0 and that integer; a tuple with
more than two fields passes the threshold filter, which reads field
index 1, but the two-element unpacking of the index builder fails on it,
so it never yields a declaration. -/
theorem claim_C5_amended (minval : Int) (t : List (List Char)) (ts : List (List (List Char))) :
    (t.length ≤ 1 → threshold_filter minval (t :: ts) = threshold_filter minval ts)
    ∧ (∀ n vtext v, t = [n, vtext] → pyInt vtext = some v → minval ≤ v →
        threshold_filter minval (t :: ts) = (threshold_filter minval ts).map (t :: ·)
        ∧ unpack_line t = some (n, v))
    ∧ (2 < t.length → unpack_line t = none) := by
  refine ⟨?_, ?_, ?_⟩
  · intro hlen
    simp only [threshold_filter, if_pos hlen]
  · rintro n vtext v rfl hv hmin
    constructor
    · simp only [threshold_filter, List.length_cons, List.length_singleton,
        List.getD_cons_succ, List.getD_cons_zero, hv]
      rw [if_neg (by omega), if_pos hmin]
    · simp only [unpack_line, hv]
      rfl
  · intro hlen
    cases t with
    | nil => simp at hlen
    | cons a t1 =>
      cases t1 with
      | nil => simp at hlen
      | cons b t2 =>
        cases t2 with
        | nil => simp at hlen
        | cons c t3 => rfl

theorem claim_C5_witness :
    2 < ([("A").data, ("5").data, ("6").data] : List (List Char)).length
    ∧ unpack_line [("A").data, ("5").data, ("6").data] = none :=
  ⟨by decide, (claim_C5_amended 0 [("A").data, ("5").data, ("6").data] []).2.2 (by decide)⟩

/-- Claim C6: a line that passes the filter and, after cleaning, splits
into at least two fields whose field index 1 is not valid integer text
makes the whole parse of the file fail with an uncaught error; the
IOError handler does not catch it, and the line is not skipped. -/
theorem claim_C6 (fileLines : List (List Char)) (minval : Int) (raw c : List Char)
    (hmem : raw ∈ fileLines) (hf : filter_line (strip_line raw) = true)
    (hc : clean_line (strip_line raw) = some c)
    (hlen : 1 < (split_eq c).length)
    (hbad : pyInt ((split_eq c).getD 1 []) = none) :
    parse_c4d_resource_header fileLines minval = none := by
  unfold parse_c4d_resource_header
  cases hm : ((fileLines.map strip_line).filter filter_line).mapM clean_line with
  | none => rfl
  | some cleaned =>
    have hstrip : strip_line raw ∈ (fileLines.map strip_line).filter filter_line :=
      List.mem_filter.mpr ⟨List.mem_map_of_mem _ hmem, hf⟩
    have hcmem : c ∈ cleaned := mapM_mem clean_line _ cleaned hm _ hstrip c hc
    have hsplit : split_eq c ∈ cleaned.map split_eq := List.mem_map_of_mem _ hcmem
    exact threshold_filter_eq_none minval _ _ hsplit hlen hbad

theorem claim_C6_witness :
    (("A=x5").data ∈ [("A=x5").data]
    ∧ filter_line (strip_line (("A=x5").data)) = true
    ∧ clean_line (strip_line (("A=x5").data)) = some (("A=x5").data)
    ∧ 1 < (split_eq (("A=x5").data)).length
    ∧ pyInt ((split_eq (("A=x5").data)).getD 1 []) = none)
    ∧ parse_c4d_resource_header [("A=x5").data] 100 = none :=
  ⟨⟨by decide, by decide, by decide, by decide, by decide⟩,
    claim_C6 [("A=x5").data] 100 (("A=x5").data) (("A=x5").data)
      (by decide) (by decide) (by decide) (by decide) (by decide)⟩

/-- Claim C3: the collision report lists exactly the entries whose name
list has more than one element, with their full name lists; the closing
message is the all-unique one exactly when nothing was reported and the
index is non-empty, and the no-IDs one exactly when nothing was reported
and the index is empty; on the declarations A and B at 100 and C at 105
it flags 100 with the names A and B and does not flag 105. -/
theorem claim_C3 (d : ValueIndex) :
    (∀ v ns, (v, ns) ∈ (check_unique_resource_ids d).1 ↔ ((v, ns) ∈ d ∧ 1 < ns.length))
    ∧ ((check_unique_resource_ids d).2 = UniqueSummary.allUnique
      ↔ ((check_unique_resource_ids d).1 = [] ∧ d ≠ []))
    ∧ ((check_unique_resource_ids d).2 = UniqueSummary.noIds
      ↔ ((check_unique_resource_ids d).1 = [] ∧ d = []))
    ∧ check_unique_resource_ids
        (build_index [(("A").data, 100), (("B").data, 100), (("C").data, 105)])
      = ([(100, [("A").data, ("B").data])], UniqueSummary.collisionsFound) := by
  refine ⟨?_, ?_, ?_, by decide⟩
  · intro v ns
    simp [check_unique_resource_ids, List.mem_filter]
  · simp only [check_unique_resource_ids]
    by_cases h1 : (d.filter (fun p => decide (1 < p.2.length))).isEmpty
    · rw [if_pos h1]
      have hfe : d.filter (fun p => decide (1 < p.2.length)) = [] := List.isEmpty_iff.mp h1
      by_cases h2 : 0 < d.length
      · rw [if_pos h2]
        have hdne : d ≠ [] := by
          intro hd
          rw [hd] at h2
          simp at h2
        exact iff_of_true rfl ⟨hfe, hdne⟩
      · rw [if_neg h2]
        have hd : d = [] := by
          cases d with
          | nil => rfl
          | cons a l => simp at h2
        constructor
        · intro hcontra
          simp at hcontra
        · rintro ⟨_, hne⟩
          exact absurd hd hne
    · rw [if_neg h1]
      constructor
      · intro hcontra
        simp at hcontra
      · rintro ⟨hfe, _⟩
        exact absurd (List.isEmpty_iff.mpr hfe) h1
  · simp only [check_unique_resource_ids]
    by_cases h1 : (d.filter (fun p => decide (1 < p.2.length))).isEmpty
    · rw [if_pos h1]
      have hfe : d.filter (fun p => decide (1 < p.2.length)) = [] := List.isEmpty_iff.mp h1
      by_cases h2 : 0 < d.length
      · rw [if_pos h2]
        have hdne : d ≠ [] := by
          intro hd
          rw [hd] at h2
          simp at h2
        constructor
        · intro hcontra
          simp at hcontra
        · rintro ⟨_, hd⟩
          exact absurd hd hdne
      · rw [if_neg h2]
        have hd : d = [] := by
          cases d with
          | nil => rfl
          | cons a l => simp at h2
        exact iff_of_true rfl ⟨hfe, hd⟩
    · rw [if_neg h1]
      constructor
      · intro hcontra
        simp at hcontra
      · rintro ⟨hfe, _⟩
        exact absurd (List.isEmpty_iff.mpr hfe) h1

/-- Claim C9, counterexample: a name declared with two different values
appears under two distinct value keys of the built index, not under
exactly one. -/
theorem claim_C9_counterexample :
    ((100 : Int), [("A").data]) ∈ build_index [(("A").data, 100), (("A").data, 105)]
    ∧ ((105 : Int), [("A").data]) ∈ build_index [(("A").data, 100), (("A").data, 105)]
    ∧ ("A").data ∈ [("A").data]
    ∧ (100 : Int) ≠ 105 := by
  decide

/-- Claim C9, amended: when no name is declared with two different
values, every declaration's name appears in the list under the key it
was declared with, and under no other key. -/
theorem claim_C9_amended (decls : List (Name × Int))
    (hfun : ∀ p ∈ decls, ∀ q ∈ decls, p.1 = q.1 → p.2 = q.2) :
    ∀ p ∈ decls, (∃ ns, (p.2, ns) ∈ build_index decls ∧ p.1 ∈ ns)
      ∧ ∀ v ns, (v, ns) ∈ build_index decls → p.1 ∈ ns → v = p.2 := by
  intro p hp
  constructor
  · exact (build_index_mem_iff decls p.2 p.1).mpr (by simpa using hp)
  · intro v ns hmem hn
    have h2 : (p.1, v) ∈ decls := (build_index_mem_iff decls v p.1).mp ⟨ns, hmem, hn⟩
    exact hfun (p.1, v) h2 p hp rfl

theorem claim_C9_witness :
    (∀ p ∈ [(("A").data, (100 : Int)), (("B").data, 100)],
      ∀ q ∈ [(("A").data, (100 : Int)), (("B").data, 100)], p.1 = q.1 → p.2 = q.2)
    ∧ ∀ v ns, (v, ns) ∈ build_index [(("A").data, (100 : Int)), (("B").data, 100)]
        → ("A").data ∈ ns → v = 100 :=
  ⟨by decide, fun v ns hm hn =>
    (claim_C9_amended [(("A").data, (100 : Int)), (("B").data, 100)] (by decide)
      (("A").data, 100) (by decide)).2 v ns hm hn⟩
